import Mathlib

/-!
Verification development for the `jws` package of the jwx repository.

The repository source under review is `jws/interface.go`, a declarations-only
file: it defines the `Message`/`Signature` data model, the `JWKAcceptor`,
`Signer`, `Verifier` interfaces, the per-algorithm signer/verifier structs and
the `DefaultJWKAcceptor` value. The executable bodies of the signing-input
builder, the HMAC verifier, the key-set verifier, the ECDSA encoder and the
multi-signature assembly are part of the same package but are not among the
provided sources; those parts are modelled from the specification and marked
`Modelled from the spec:` in their doc comments.

Bytes are modelled as natural numbers (each meant to lie below 256; bounds are
made explicit only where a statement needs them).
-/

namespace Jws

/-- The slice of the external `jwk.Key` collaborator this package consults:
`DefaultJWKAcceptor` reads only `key.KeyUsage()`. -/
structure JwkKey where
  keyUsage : String
deriving DecidableEq

/-- `type JWKAcceptFunc func(jwk.Key) bool` -/
def JWKAcceptFunc := JwkKey → Bool

/-- `func (f JWKAcceptFunc) Accept(key jwk.Key) bool { return f(key) }` -/
def JWKAcceptFunc.Accept (f : JWKAcceptFunc) (key : JwkKey) : Bool :=
  f key

/-- `DefaultJWKAcceptor`: rejects a key whose usage is non-empty and neither
"enc" nor "sig"; accepts everything else. Direct transcription of
`jws/interface.go` lines 60-67. -/
def DefaultJWKAcceptor : JWKAcceptFunc := fun key =>
  let u := key.keyUsage
  if u != "" && u != "enc" && u != "sig" then false else true

/-! ### Constant-time comparison and the HMAC verifier

`HMACVerifier` (interface.go lines 137-139) holds a `Signer`; its `Verify`
body is not among the provided sources, so it is modelled from the spec. -/

/-- Modelled from the spec: the constant-time equality check (`hmac.Equal`,
i.e. `subtle.ConstantTimeCompare`): if the lengths differ the result is
false; otherwise every corresponding byte pair is XOR-ed and the results are
OR-accumulated over the whole length — no early return at the first
mismatching byte — and the inputs are equal exactly when the accumulator is
still zero. -/
def constantTimeCompare (x y : List Nat) : Bool :=
  (x.length == y.length) &&
    ((List.zip x y).foldl (fun acc p => acc ||| (p.1 ^^^ p.2)) 0 == 0)

/-- The Go signer contract `Sign([]byte, key) ([]byte, error)`, with the key
specialised to HMAC secrets (byte strings). -/
def HmacSignFunc := List Nat → List Nat → Except String (List Nat)

/-- `HMACSigner` carries its bound algorithm and a signing function
(interface.go lines 103-109). -/
structure HMACSigner where
  alg : String
  sign : HmacSignFunc

/-- `HMACVerifier` wraps a signer (interface.go lines 137-139). -/
structure HMACVerifier where
  signer : HMACSigner

/-- Modelled from the spec: HMAC verification recomputes the HMAC over the
same signing input with the same key via the wrapped signer, then compares
with the candidate signature using the constant-time equality check. -/
def HMACVerifier.Verify (v : HMACVerifier) (payload signature key : List Nat) :
    Except String Unit :=
  match v.signer.sign payload key with
  | Except.error e => Except.error e
  | Except.ok expected =>
      if constantTimeCompare signature expected then Except.ok ()
      else Except.error "failed to match hmac signature"

theorem nat_or_eq_zero (n m : Nat) : n ||| m = 0 ↔ n = 0 ∧ m = 0 := by
  constructor
  · intro h
    constructor
    · apply Nat.eq_of_testBit_eq
      intro i
      have := congrArg (fun x => Nat.testBit x i) h
      simp [Nat.testBit_or] at this
      simp [this.1]
    · apply Nat.eq_of_testBit_eq
      intro i
      have := congrArg (fun x => Nat.testBit x i) h
      simp [Nat.testBit_or] at this
      simp [this.2]
  · rintro ⟨rfl, rfl⟩
    rfl

theorem foldl_or_eq_zero (l : List Nat) (a : Nat) :
    l.foldl (fun acc v => acc ||| v) a = 0 ↔ a = 0 ∧ ∀ v ∈ l, v = 0 := by
  induction l generalizing a with
  | nil => simp
  | cons x xs ih =>
      simp only [List.foldl_cons, ih, nat_or_eq_zero, List.mem_cons]
      constructor
      · rintro ⟨⟨ha, hx⟩, hall⟩
        exact ⟨ha, fun v hv => hv.elim (fun h => h ▸ hx) (hall v)⟩
      · rintro ⟨ha, hall⟩
        exact ⟨⟨ha, hall x (Or.inl rfl)⟩, fun v hv => hall v (Or.inr hv)⟩

theorem fst_eq_snd_of_mem_zip_self {x : List Nat} {p : Nat × Nat}
    (hp : p ∈ List.zip x x) : p.1 = p.2 := by
  induction x with
  | nil => simp at hp
  | cons a xs ih =>
      simp only [List.zip_cons_cons, List.mem_cons] at hp
      rcases hp with h | h
      · simp [h]
      · exact ih h

theorem constantTimeCompare_eq_true (x y : List Nat) :
    constantTimeCompare x y = true ↔ x = y := by
  unfold constantTimeCompare
  simp only [Bool.and_eq_true, beq_iff_eq]
  have hfold : (List.zip x y).foldl (fun acc p => acc ||| (p.1 ^^^ p.2)) 0 =
      ((List.zip x y).map (fun p => p.1 ^^^ p.2)).foldl (fun acc v => acc ||| v) 0 := by
    rw [List.foldl_map]
  constructor
  · rintro ⟨hlen, hzero⟩
    rw [hfold, foldl_or_eq_zero] at hzero
    apply List.ext_get hlen
    intro i h1 h2
    have hmem : (x.get ⟨i, h1⟩, y.get ⟨i, h2⟩) ∈ List.zip x y := by
      have : (List.zip x y).get ⟨i, by simp [List.length_zip]; omega⟩ =
          (x.get ⟨i, h1⟩, y.get ⟨i, h2⟩) := by
        simp [List.getElem_zip]
      rw [← this]
      exact List.get_mem _ _ _
    have := hzero.2 _ (List.mem_map_of_mem (fun p => p.1 ^^^ p.2) hmem)
    simpa [Nat.xor_eq_zero] using this
  · rintro rfl
    refine ⟨rfl, ?_⟩
    rw [hfold, foldl_or_eq_zero]
    refine ⟨rfl, ?_⟩
    intro v hv
    rcases List.mem_map.mp hv with ⟨p, hp, rfl⟩
    simp [fst_eq_snd_of_mem_zip_self hp, Nat.xor_self]

/-- C1: `DefaultJWKAcceptor` accepts a key exactly when its declared usage is
the empty string, "enc" or "sig"; in particular a key tagged "enc" is
accepted (and hence passed on to cryptographic verification rather than
filtered out). -/
theorem default_jwk_acceptor_spec (k : JwkKey) :
    (DefaultJWKAcceptor.Accept k = true ↔
      k.keyUsage = "" ∨ k.keyUsage = "enc" ∨ k.keyUsage = "sig")
    ∧ DefaultJWKAcceptor.Accept { keyUsage := "enc" } = true := by
  refine ⟨?_, rfl⟩
  simp only [JWKAcceptFunc.Accept, DefaultJWKAcceptor]
  by_cases h1 : k.keyUsage = "" <;> by_cases h2 : k.keyUsage = "enc" <;>
    by_cases h3 : k.keyUsage = "sig" <;> simp [h1, h2, h3]

/-- C10: wrapping a plain predicate as a `JWKAcceptFunc` changes no
acceptance decision: `Accept` is the identity adapter. -/
theorem jwk_accept_func_identity (f : JWKAcceptFunc) (k : JwkKey) :
    JWKAcceptFunc.Accept f k = f k := rfl

/-- C2: HMAC verification is extensionally re-signing: whenever the wrapped
signer produces `expected` on the same signing input and key, `Verify`
accepts a candidate signature exactly when it equals `expected` byte for
byte (the comparison being the full-length constant-time check). -/
theorem hmac_verify_iff_resign (v : HMACVerifier)
    (payload signature key expected : List Nat)
    (h : v.signer.sign payload key = Except.ok expected) :
    v.Verify payload signature key = Except.ok () ↔ signature = expected := by
  unfold HMACVerifier.Verify
  rw [h]
  by_cases hc : constantTimeCompare signature expected = true
  · have heq := (constantTimeCompare_eq_true signature expected).mp hc
    subst heq
    simp [hc]
  · have hne : signature ≠ expected := fun he =>
      hc ((constantTimeCompare_eq_true signature expected).mpr he)
    simp [hc, hne]

/-- Witness for C2 at a concrete signer (HMAC modelled as an arbitrary
concrete keyed function), signing input, key and matching signature. -/
theorem hmac_verify_iff_resign_witness :
    HMACVerifier.Verify
        { signer := { alg := "HS256", sign := fun p k => Except.ok (p ++ k) } }
        [1, 2] [1, 2, 9] [9] = Except.ok () ↔ ([1, 2, 9] : List Nat) = [1, 2] ++ [9] :=
  hmac_verify_iff_resign
    { signer := { alg := "HS256", sign := fun p k => Except.ok (p ++ k) } }
    [1, 2] [1, 2, 9] [9] ([1, 2] ++ [9]) rfl

/-! ### Signing-input builder -/

/-- The RFC 4648 section 5 URL-safe base64 alphabet. -/
def base64urlAlphabet : List Char :=
  "ABCDEFGHIJKLMNOPQRSTUVWXYZabcdefghijklmnopqrstuvwxyz0123456789-_".toList

/-- The character encoding a 6-bit group. -/
def b64Char (n : Nat) : Char :=
  base64urlAlphabet.getD n 'A'

/-- Modelled from the spec: unpadded base64url encoding of a byte sequence
(RFC 4648 section 5, no padding): bytes are consumed three at a time into
four 6-bit groups; a trailing single byte yields two characters and a
trailing pair of bytes three characters, never a padding character. -/
def base64urlEncode : List Nat → List Char
  | [] => []
  | [b1] => [b64Char (b1 / 4), b64Char (b1 % 4 * 16)]
  | [b1, b2] =>
      [b64Char (b1 / 4), b64Char (b1 % 4 * 16 + b2 / 16), b64Char (b2 % 16 * 4)]
  | b1 :: b2 :: b3 :: rest =>
      b64Char (b1 / 4) :: b64Char (b1 % 4 * 16 + b2 / 16) ::
        b64Char (b2 % 16 * 4 + b3 / 64) :: b64Char (b3 % 64) ::
          base64urlEncode rest

/-- Modelled from the spec: the canonical signing input is
base64url(protectedHeaderEncoding), a full stop, then base64url(payload). -/
def buildSigningInput (hdr payload : List Nat) : List Char :=
  base64urlEncode hdr ++ '.' :: base64urlEncode payload

theorem base64urlEncode_length : ∀ bs : List Nat,
    (base64urlEncode bs).length = (4 * bs.length + 2) / 3
  | [] => rfl
  | [_] => by simp [base64urlEncode]
  | [_, _] => by simp [base64urlEncode]
  | _ :: _ :: _ :: rest => by
      have ih := base64urlEncode_length rest
      simp only [base64urlEncode, List.length_cons, ih]
      omega

theorem b64Char_mem_alphabet (n : Nat) : b64Char n ∈ base64urlAlphabet := by
  unfold b64Char
  rcases Nat.lt_or_ge n base64urlAlphabet.length with h | h
  · rw [List.getD_eq_getElem _ _ h]
    exact List.getElem_mem h
  · rw [List.getD_eq_default _ _ h]
    decide

theorem base64urlEncode_chars : ∀ bs : List Nat,
    ∀ c ∈ base64urlEncode bs, c ∈ base64urlAlphabet
  | [], c, hc => by simp [base64urlEncode] at hc
  | [b1], c, hc => by
      simp only [base64urlEncode, List.mem_cons, List.not_mem_nil, or_false] at hc
      rcases hc with rfl | rfl <;> exact b64Char_mem_alphabet _
  | [b1, b2], c, hc => by
      simp only [base64urlEncode, List.mem_cons, List.not_mem_nil, or_false] at hc
      rcases hc with rfl | rfl | rfl <;> exact b64Char_mem_alphabet _
  | b1 :: b2 :: b3 :: rest, c, hc => by
      simp only [base64urlEncode, List.mem_cons] at hc
      rcases hc with rfl | rfl | rfl | rfl | hmem
      · exact b64Char_mem_alphabet _
      · exact b64Char_mem_alphabet _
      · exact b64Char_mem_alphabet _
      · exact b64Char_mem_alphabet _
      · exact base64urlEncode_chars rest c hmem

theorem pad_not_mem_base64urlEncode (bs : List Nat) : '=' ∉ base64urlEncode bs := by
  intro hmem
  have := base64urlEncode_chars bs '=' hmem
  revert this
  decide

/-- C3: the signing-input builder returns exactly
base64url(header), a full stop separator, then base64url(payload); it is a
pure function so identical inputs give identical bytes; the empty payload
yields an empty second segment, not an error; the encoding is unpadded: the
encoded length is ceil(4n/3) rounded down from (4n+2)/3 and the padding
character never occurs in the output. -/
theorem signing_input_spec (hdr p : List Nat) :
    buildSigningInput hdr p = base64urlEncode hdr ++ '.' :: base64urlEncode p
    ∧ (∀ hdr2 p2, hdr2 = hdr → p2 = p →
        buildSigningInput hdr2 p2 = buildSigningInput hdr p)
    ∧ buildSigningInput hdr [] = base64urlEncode hdr ++ ['.']
    ∧ (base64urlEncode p).length = (4 * p.length + 2) / 3
    ∧ '=' ∉ buildSigningInput hdr p := by
  refine ⟨rfl, ?_, rfl, base64urlEncode_length p, ?_⟩
  · rintro hdr2 p2 rfl rfl
    rfl
  · intro hmem
    unfold buildSigningInput at hmem
    rcases List.mem_append.mp hmem with hm | hm
    · exact pad_not_mem_base64urlEncode hdr hm
    · rcases List.mem_cons.mp hm with h | hm2
      · exact absurd h (by decide)
      · exact pad_not_mem_base64urlEncode p hm2

/-- Witness for C3 at a concrete header and payload. -/
theorem signing_input_spec_witness :
    buildSigningInput [104, 105] [] = base64urlEncode [104, 105] ++ ['.'] :=
  (signing_input_spec [104, 105] []).2.2.1

/-! ### Verifier family dispatch -/

/-- The closed set of algorithm families (RSASigner / ECDSASigner /
HMACSigner / EdDSASigner and their verifiers). -/
inductive KeyFamily
  | rsa
  | ecdsa
  | hmac
  | eddsa
deriving DecidableEq

/-- The verification-side error kinds of the design. -/
inductive VerifyError
  | keyTypeMismatch
  | malformedSignatureWidth
  | cryptographicMismatch
  | noMatchingSignature
deriving DecidableEq

/-- Modelled from the spec: a verification key tagged with its algorithm
family; the Go verifiers receive an untyped key argument and type-switch on
it before doing anything else. -/
structure VKey where
  family : KeyFamily
  material : List Nat

/-- Modelled from the spec: every Verifier is bound to exactly one family at
construction and returns KeyTypeMismatch, before invoking the cryptographic
primitive, whenever the supplied key's family differs from the bound one.
`core` stands for the family's cryptographic verification primitive, applied
to the payload, the candidate signature and the key material. -/
def familyVerify (bound : KeyFamily)
    (core : List Nat → List Nat → List Nat → Except VerifyError Unit)
    (payload signature : List Nat) (key : VKey) : Except VerifyError Unit :=
  if key.family = bound then core payload signature key.material
  else Except.error VerifyError.keyTypeMismatch

/-- C5: a Verifier bound to family B, given a key of any other family A,
returns the key-type-mismatch error, and it does so before any cryptographic
work: the result is the same for every underlying cryptographic primitive,
so the key is never coerced into family B. -/
theorem verifier_key_type_mismatch (bound : KeyFamily)
    (core core2 : List Nat → List Nat → List Nat → Except VerifyError Unit)
    (payload signature : List Nat) (key : VKey)
    (h : key.family ≠ bound) :
    familyVerify bound core payload signature key =
      Except.error VerifyError.keyTypeMismatch
    ∧ familyVerify bound core payload signature key =
      familyVerify bound core2 payload signature key := by
  unfold familyVerify
  simp [h]

/-- Witness for C5: an RSA-family key presented to an HMAC-bound verifier is
rejected with the key-type-mismatch error. -/
theorem verifier_key_type_mismatch_witness :
    familyVerify KeyFamily.hmac (fun _ _ _ => Except.ok ()) [1] [2]
      { family := KeyFamily.rsa, material := [3] } =
      Except.error VerifyError.keyTypeMismatch :=
  (verifier_key_type_mismatch KeyFamily.hmac (fun _ _ _ => Except.ok ())
    (fun _ _ _ => Except.error VerifyError.cryptographicMismatch) [1] [2]
    { family := KeyFamily.rsa, material := [3] } (by decide)).1

/-! ### ECDSA fixed-width signature contract -/

/-- Modelled from the spec: big-endian encoding of a natural number into
exactly w bytes (the Go code copies r.Bytes() right-aligned into a w-byte
zero buffer, w being the curve coordinate byte width). -/
def fixedWidthBytes : Nat → Nat → List Nat
  | 0, _ => []
  | Nat.succ w, x => x / 256 ^ w % 256 :: fixedWidthBytes w x

/-- Modelled from the spec: an ECDSA signature is the fixed-width
concatenation of r and s, each scaled to the curve coordinate byte width w
(not an ASN.1 DER encoding). -/
def ecdsaSignEncode (w r s : Nat) : List Nat :=
  fixedWidthBytes w r ++ fixedWidthBytes w s

/-- Big-endian byte-sequence-to-number interpretation used to split a
fixed-width signature back into r and s. -/
def bytesToNat (bs : List Nat) : Nat :=
  bs.foldl (fun acc b => acc * 256 + b) 0

/-- Modelled from the spec: the ECDSA verifier rejects any candidate
signature whose length is not exactly 2*w, without attempting padding or
truncation; only with the exact width does it split off r and s and call the
curve-level primitive. -/
def ecdsaVerify (w : Nat) (core : Nat → Nat → Bool) (signature : List Nat) :
    Except VerifyError Unit :=
  if signature.length = 2 * w then
    if core (bytesToNat (signature.take w)) (bytesToNat (signature.drop w)) then
      Except.ok ()
    else Except.error VerifyError.cryptographicMismatch
  else Except.error VerifyError.malformedSignatureWidth

theorem fixedWidthBytes_length : ∀ w x : Nat, (fixedWidthBytes w x).length = w
  | 0, _ => rfl
  | Nat.succ w, x => by
      simp only [fixedWidthBytes, List.length_cons, fixedWidthBytes_length w x]

/-- C8: every signature the ECDSA signer produces for coordinate width w has
length exactly 2*w, and the ECDSA verifier rejects every candidate whose
length is not 2*w with the malformed-width error, independently of the
underlying curve primitive (so no padding or truncation is ever attempted). -/
theorem ecdsa_fixed_width (w r s : Nat) (core core2 : Nat → Nat → Bool)
    (signature : List Nat) (hlen : signature.length ≠ 2 * w) :
    (ecdsaSignEncode w r s).length = 2 * w
    ∧ ecdsaVerify w core signature =
      Except.error VerifyError.malformedSignatureWidth
    ∧ ecdsaVerify w core signature = ecdsaVerify w core2 signature := by
  refine ⟨?_, ?_, ?_⟩
  · simp [ecdsaSignEncode, fixedWidthBytes_length]
    omega
  · simp [ecdsaVerify, hlen]
  · simp [ecdsaVerify, hlen]

/-- Witness for C8: for the width-1 curve model, a 3-byte candidate is
rejected as malformed and the signer output for r = 2, s = 3 has 2 bytes. -/
theorem ecdsa_fixed_width_witness :
    (ecdsaSignEncode 1 2 3).length = 2 * 1
    ∧ ecdsaVerify 1 (fun _ _ => true) [1, 2, 3] =
      Except.error VerifyError.malformedSignatureWidth :=
  ⟨(ecdsa_fixed_width 1 2 3 (fun _ _ => true) (fun _ _ => false) [1, 2, 3]
      (by decide)).1,
    (ecdsa_fixed_width 1 2 3 (fun _ _ => true) (fun _ _ => false) [1, 2, 3]
      (by decide)).2.1⟩

/-! ### Key-Set Verifier -/

/-- Modelled from the spec: try the candidate keys for one Signature entry
in order: the Acceptor is applied first and rejected keys are skipped with
no cryptographic work; for accepted keys verification is attempted and the
first success is returned. `S` is the Signature-entry type, `K` the key
type, `ver` the per-pair cryptographic attempt. -/
def tryKeysForSig {S K : Type} (acceptor : K → Bool) (ver : S → K → Bool)
    (s : S) : List K → Option (S × K)
  | [] => none
  | k :: rest =>
      if acceptor k then
        if ver s k then some (s, k) else tryKeysForSig acceptor ver s rest
      else tryKeysForSig acceptor ver s rest

/-- Modelled from the spec: the Key-Set Verifier walks the Signature entries
and, for each, the candidate keys; the first successful
(Signature, accepted key) pair short-circuits, and if no pair succeeds the
aggregate NoMatchingSignature error is returned. -/
def verifyWithKeySet {S K : Type} (acceptor : K → Bool) (ver : S → K → Bool) :
    List S → List K → Except VerifyError (S × K)
  | [], _ => Except.error VerifyError.noMatchingSignature
  | s :: rest, keys =>
      match tryKeysForSig acceptor ver s keys with
      | some m => Except.ok m
      | none => verifyWithKeySet acceptor ver rest keys

theorem tryKeysForSig_eq_none_iff {S K : Type} (acceptor : K → Bool)
    (ver : S → K → Bool) (s : S) (keys : List K) :
    tryKeysForSig acceptor ver s keys = none ↔
      ∀ k ∈ keys, ¬(acceptor k = true ∧ ver s k = true) := by
  induction keys with
  | nil => simp [tryKeysForSig]
  | cons k rest ih =>
      by_cases ha : acceptor k = true
      · by_cases hv : ver s k = true
        · simp [tryKeysForSig, ha, hv]
        · simp [tryKeysForSig, ha, hv, ih]
      · simp [tryKeysForSig, ha, ih]

theorem tryKeysForSig_congr {S K : Type} (acceptor : K → Bool)
    (ver ver2 : S → K → Bool) (s : S) (keys : List K)
    (hagree : ∀ k, acceptor k = true → ver s k = ver2 s k) :
    tryKeysForSig acceptor ver s keys = tryKeysForSig acceptor ver2 s keys := by
  induction keys with
  | nil => rfl
  | cons k rest ih =>
      by_cases ha : acceptor k = true
      · simp [tryKeysForSig, ha, hagree k ha, ih]
      · simp [tryKeysForSig, ha, ih]

theorem verifyWithKeySet_cases {S K : Type} (acceptor : K → Bool)
    (ver : S → K → Bool) (sigs : List S) (keys : List K) :
    (∃ m, verifyWithKeySet acceptor ver sigs keys = Except.ok m) ∨
      verifyWithKeySet acceptor ver sigs keys =
        Except.error VerifyError.noMatchingSignature := by
  induction sigs with
  | nil => exact Or.inr rfl
  | cons s rest ih =>
      cases htry : tryKeysForSig acceptor ver s keys with
      | some m => exact Or.inl ⟨m, by simp [verifyWithKeySet, htry]⟩
      | none =>
          rcases ih with ⟨m, hm⟩ | he
          · exact Or.inl ⟨m, by simp [verifyWithKeySet, htry, hm]⟩
          · exact Or.inr (by simp [verifyWithKeySet, htry, he])

theorem verifyWithKeySet_isOk_iff {S K : Type} (acceptor : K → Bool)
    (ver : S → K → Bool) (sigs : List S) (keys : List K) :
    (verifyWithKeySet acceptor ver sigs keys).isOk = true ↔
      ∃ s ∈ sigs, ∃ k ∈ keys, acceptor k = true ∧ ver s k = true := by
  induction sigs with
  | nil => simp [verifyWithKeySet, Except.isOk, Except.toBool]
  | cons s rest ih =>
      cases htry : tryKeysForSig acceptor ver s keys with
      | some m =>
          simp only [verifyWithKeySet, htry]
          constructor
          · intro _
            have hne : tryKeysForSig acceptor ver s keys ≠ none := by
              simp [htry]
            rw [Ne, tryKeysForSig_eq_none_iff] at hne
            push_neg at hne
            rcases hne with ⟨k, hk, hacc⟩
            exact ⟨s, List.mem_cons_self s rest, k, hk, hacc⟩
          · intro _
            simp [Except.isOk, Except.toBool]
      | none =>
          have hnone := (tryKeysForSig_eq_none_iff acceptor ver s keys).mp htry
          simp only [verifyWithKeySet, htry, ih, List.mem_cons]
          constructor
          · rintro ⟨s2, hs2, k, hk, hacc⟩
            exact ⟨s2, Or.inr hs2, k, hk, hacc⟩
          · rintro ⟨s2, hs2 | hs2, k, hk, hacc⟩
            · exact absurd hacc (hs2 ▸ hnone k hk)
            · exact ⟨s2, hs2, k, hk, hacc⟩

/-- C6: the Key-Set Verifier succeeds exactly when some (Signature entry,
key) pair with an Acceptor-accepted key cryptographically validates —
success is therefore independent of iteration order; keys the Acceptor
rejects are skipped without cryptographic work, so the outcome is unchanged
by replacing the cryptographic attempt on rejected keys; and when no pair
succeeds the result is exactly the aggregate NoMatchingSignature error,
carrying no per-key failure reasons. -/
theorem keyset_verifier_spec {S K : Type} (acceptor : K → Bool)
    (ver ver2 : S → K → Bool) (sigs : List S) (keys : List K)
    (hagree : ∀ s k, acceptor k = true → ver s k = ver2 s k) :
    ((verifyWithKeySet acceptor ver sigs keys).isOk = true ↔
      ∃ s ∈ sigs, ∃ k ∈ keys, acceptor k = true ∧ ver s k = true)
    ∧ ((¬∃ s ∈ sigs, ∃ k ∈ keys, acceptor k = true ∧ ver s k = true) →
      verifyWithKeySet acceptor ver sigs keys =
        Except.error VerifyError.noMatchingSignature)
    ∧ verifyWithKeySet acceptor ver sigs keys =
      verifyWithKeySet acceptor ver2 sigs keys := by
  refine ⟨verifyWithKeySet_isOk_iff acceptor ver sigs keys, ?_, ?_⟩
  · intro hno
    rcases verifyWithKeySet_cases acceptor ver sigs keys with ⟨m, hm⟩ | he
    · exfalso
      apply hno
      rw [← verifyWithKeySet_isOk_iff acceptor ver sigs keys, hm]
      rfl
    · exact he
  · induction sigs with
    | nil => rfl
    | cons s rest ih =>
        have := tryKeysForSig_congr acceptor ver ver2 s keys
          (fun k hk => hagree s k hk)
        simp only [verifyWithKeySet, this, ih]

/-- Witness for C6: one signature entry and one accepted validating key make
the key-set verification succeed. -/
theorem keyset_verifier_spec_witness :
    (verifyWithKeySet (fun _ : Nat => true) (fun _ _ : Nat => true)
      [0] [1]).isOk = true :=
  (keyset_verifier_spec (fun _ : Nat => true) (fun _ _ : Nat => true)
      (fun _ _ => true) [0] [1] (fun _ _ _ => rfl)).1.mpr
    ⟨0, by simp, 1, by simp, rfl, rfl⟩

/-! ### Message model and multi-signature assembly -/

/-- Header sets, modelled as ordered name-value lists (the Headers
interface of the package). -/
abbrev Headers := List (String × String)

/-- `Signature` (interface.go lines 38-42): unprotected headers, protected
headers (the Go field is named protected, a reserved word here) and the raw
signature bytes. -/
structure Signature where
  headers : Headers
  protectedHeaders : Headers
  signature : List Nat

/-- `Message` (interface.go lines 33-36): a payload and its ordered sequence
of Signature entries. -/
structure Message where
  payload : List Nat
  signatures : List Signature

/-- `PayloadSigner` (interface.go lines 17-22): a Signer bundled with its
algorithm and the protected/public headers it contributes. -/
structure PayloadSigner where
  sign : List Nat → Except String (List Nat)
  algorithm : String
  protectedHeader : Headers
  publicHeader : Headers

/-- Modelled from the spec: multi-signature assembly: for each PayloadSigner
in order, sign the payload and build a Signature entry from its headers and
the produced bytes; the first failing sign call aborts the whole
construction with its error and no Message is produced. -/
def signMessage (payload : List Nat) : List PayloadSigner → Except String Message
  | [] => Except.ok { payload := payload, signatures := [] }
  | ps :: rest =>
      match ps.sign payload with
      | Except.error e => Except.error e
      | Except.ok sigBytes =>
          match signMessage payload rest with
          | Except.error e => Except.error e
          | Except.ok msg =>
              Except.ok
                { payload := payload
                  signatures :=
                    { headers := ps.publicHeader
                      protectedHeaders := ps.protectedHeader
                      signature := sigBytes } :: msg.signatures }

/-- C7: assembly is atomic: if any PayloadSigner's sign call fails, the
whole construction returns an error and no Message value is produced; if
every sign call succeeds, the resulting Message carries exactly one
Signature entry per PayloadSigner. -/
theorem message_assembly_atomic (payload : List Nat)
    (signers : List PayloadSigner) :
    ((∃ ps ∈ signers, ∃ e, ps.sign payload = Except.error e) →
      ∀ m : Message, signMessage payload signers ≠ Except.ok m)
    ∧ ((∀ ps ∈ signers, ∃ b, ps.sign payload = Except.ok b) →
      ∃ m : Message, signMessage payload signers = Except.ok m
        ∧ m.signatures.length = signers.length) := by
  constructor
  · induction signers with
    | nil => rintro ⟨ps, hps, _⟩; simp at hps
    | cons ps rest ih =>
        rintro ⟨ps2, hmem, e, he⟩ m hm
        rcases List.mem_cons.mp hmem with rfl | hmem2
        · rw [signMessage, he] at hm
          exact Except.noConfusion hm
        · cases hsign : ps.sign payload with
          | error e2 =>
              rw [signMessage, hsign] at hm
              exact Except.noConfusion hm
          | ok b =>
              rw [signMessage, hsign] at hm
              cases hrest : signMessage payload rest with
              | error e2 =>
                  rw [hrest] at hm
                  exact Except.noConfusion hm
              | ok msg =>
                  exact ih ⟨ps2, hmem2, e, he⟩ msg hrest
  · induction signers with
    | nil => intro _; exact ⟨_, rfl, rfl⟩
    | cons ps rest ih =>
        intro hall
        rcases hall ps (List.mem_cons_self ps rest) with ⟨b, hb⟩
        rcases ih (fun p hp => hall p (List.mem_cons_of_mem ps hp)) with
          ⟨msg, hmsg, hlen⟩
        refine ⟨{ payload := payload
                  signatures :=
                    { headers := ps.publicHeader
                      protectedHeaders := ps.protectedHeader
                      signature := b } :: msg.signatures }, ?_, ?_⟩
        · rw [signMessage, hb, hmsg]
        · simp [hlen]

/-- Witness for C7: a single always-succeeding PayloadSigner yields a
Message with exactly one Signature entry. -/
theorem message_assembly_atomic_witness :
    ∃ m : Message,
      signMessage [7]
        [{ sign := fun p => Except.ok p, algorithm := "HS256",
           protectedHeader := [], publicHeader := [] }] = Except.ok m
      ∧ m.signatures.length = 1 :=
  (message_assembly_atomic [7]
    [{ sign := fun p => Except.ok p, algorithm := "HS256",
       protectedHeader := [], publicHeader := [] }]).2
    (fun ps hps => by
      rcases List.mem_singleton.mp hps with rfl
      exact ⟨[7], rfl⟩)

end Jws
